import Mathlib

/-!
Verification of the DroidPin audio-transcription pipeline.

A shallow embedding of the chunking, retry and orchestration logic of
`src/droid_pin/audio/chunker.py`, `src/droid_pin/transcription/client.py`
and `src/droid_pin/transcription/processor.py`.

File names are modelled as plain strings (all transient files live in one
working directory), the file system as a `Finset String` of existing file
names, audio timelines as durations in milliseconds, and the size of an
exported audio range as an uninterpreted function
`sz : bitrate → start_ms → end_ms → bytes`.
-/

namespace DroidPin

/-- `AudioChunk` from `chunker.py`: one slice of the source timeline. -/
structure AudioChunk where
  path : String
  index : Nat
  start_ms : Nat
  end_ms : Nat
  duration_ms : Nat
deriving DecidableEq, Repr

/-- Zero-padded decimal rendering of `n`, Python's `f"{n:04d}"`. -/
def pad4 (n : Nat) : String :=
  let s := Nat.toDigits 10 n
  String.mk (List.replicate (4 - s.length) '0' ++ s)

/-- Chunk file name `f"chunk_{i:04d}.mp3"` used by the chunker. -/
def chunkPath (i : Nat) : String :=
  "chunk_" ++ pad4 i ++ ".mp3"

/-- Bool test that `needle` starts `hay`. -/
def listPrefixOf : List Char → List Char → Bool
  | [], _ => true
  | _ :: _, [] => false
  | a :: as, b :: bs => a = b && listPrefixOf as bs

/-- Bool test that `needle` occurs inside `hay`. -/
def listInfixOf (needle : List Char) : List Char → Bool
  | [] => needle.isEmpty
  | c :: rest => listPrefixOf needle (c :: rest) || listInfixOf needle rest

/-- Python's `needle in hay` on strings: substring containment. -/
def strContains (hay needle : String) : Bool :=
  listInfixOf needle.toList hay.toList

/-- The fixed 5-minute window `chunk_duration_ms = 5 * 60 * 1000`. -/
def chunkWindowMs : Nat := 5 * 60 * 1000

/-- The body of `AudioChunker._split_segment` on the range `[s, e)` with
next chunk index `b`, returning the finalized chunks together with the
file system `fs` and the set `w` of file names written so far, with an
explicit fuel argument making the recursion structural.  `sz br x y` is
the byte size of the range `[x, y)` exported at bitrate `br`; exporting a
file inserts its name into `fs` and `w`, `unlink` erases it from `fs`. -/
def splitSegmentF (sz : Nat → Nat → Nat → Nat) (maxB : Nat) :
    Nat → Nat → Nat → Nat → Finset String → Finset String →
    List AudioChunk × Finset String × Finset String
  | 0, s, e, b, fs, w =>
    -- fuel exhausted: only reachable with an empty range, for which the
    -- minimum-size floor below fires anyway
    ([⟨chunkPath b, b, s, e, e - s⟩],
     insert (chunkPath b) fs, insert (chunkPath b) w)
  | fuel + 1, s, e, b, fs, w =>
    if (s + e) / 2 - s < 10000 then
      -- minimum-size floor: export the whole range at 32k, unconditionally
      ([⟨chunkPath b, b, s, e, e - s⟩],
       insert (chunkPath b) fs, insert (chunkPath b) w)
    else
      let mid := (s + e) / 2
      -- left half: export at 64k, keep if small enough, else unlink and recurse
      let L :=
        if sz 64 s mid > maxB then
          splitSegmentF sz maxB fuel s mid b
            ((insert (chunkPath b) fs).erase (chunkPath b)) (insert (chunkPath b) w)
        else
          ([⟨chunkPath b, b, s, mid, mid - s⟩],
           insert (chunkPath b) fs, insert (chunkPath b) w)
      let lcs := L.1
      let rb := b + lcs.length
      -- right half, chunk indices continuing after the left half's
      let R :=
        if sz 64 mid e > maxB then
          splitSegmentF sz maxB fuel mid e rb
            ((insert (chunkPath rb) L.2.1).erase (chunkPath rb))
            (insert (chunkPath rb) L.2.2)
        else
          ([⟨chunkPath rb, rb, mid, e, e - mid⟩],
           insert (chunkPath rb) L.2.1, insert (chunkPath rb) L.2.2)
      (lcs ++ R.1, R.2.1, R.2.2)

/-- `AudioChunker._split_segment`, via `splitSegmentF` with fuel `e - s`:
the range length strictly shrinks at each bisection, and whenever the fuel
reaches zero the range is empty, so the floor branch would fire anyway —
the fuel never changes the result. -/
def splitSegment (sz : Nat → Nat → Nat → Nat) (maxB s e b : Nat)
    (fs w : Finset String) :
    List AudioChunk × Finset String × Finset String :=
  splitSegmentF sz maxB (e - s) s e b fs w

/-- The main loop of `AudioChunker.chunk_audio` over the remaining window
indices, accumulating chunks; `D` is the total duration.  Each window is
exported to `chunk_{i:04d}.mp3` (`i` the window index), kept if under the
ceiling and otherwise unlinked and split further. -/
def chunkGo (sz : Nat → Nat → Nat → Nat) (maxB D : Nat) :
    List Nat → List AudioChunk → Finset String → Finset String →
    List AudioChunk × Finset String × Finset String
  | [], acc, fs, w => (acc, fs, w)
  | i :: rest, acc, fs, w =>
    let s := i * chunkWindowMs
    let e := min (s + chunkWindowMs) D
    let p := chunkPath i
    if sz 64 s e > maxB then
      let S := splitSegment sz maxB s e acc.length ((insert p fs).erase p) (insert p w)
      chunkGo sz maxB D rest (acc ++ S.1) S.2.1 S.2.2
    else
      chunkGo sz maxB D rest (acc ++ [⟨p, acc.length, s, e, e - s⟩])
        (insert p fs) (insert p w)

/-- `AudioChunker.chunk_audio`: `fileSize` is the input file's byte size,
`D` its duration in ms, `inPath` its file name.  A file at or under the
ceiling is returned as a single chunk without writing anything; otherwise
the timeline is cut into 5-minute windows handled by `chunkGo`. -/
def chunk_audio (sz : Nat → Nat → Nat → Nat) (maxB fileSize D : Nat)
    (inPath : String) (fs w : Finset String) :
    List AudioChunk × Finset String × Finset String :=
  if ¬ (fileSize > maxB) then
    ([⟨inPath, 0, 0, D, D⟩], fs, w)
  else
    let numChunks := (D + chunkWindowMs - 1) / chunkWindowMs
    chunkGo sz maxB D (List.range numChunks) [] fs w

/-- The chunk plan alone, with the file-system state forgotten. -/
def planChunks (sz : Nat → Nat → Nat → Nat) (maxB fileSize D : Nat)
    (inPath : String) : List AudioChunk :=
  (chunk_audio sz maxB fileSize D inPath ∅ ∅).1

/-- `AudioChunker.cleanup_chunks`: unlink each chunk's file if it exists
and its name contains `"chunk_"`. -/
def cleanup_chunks (chunks : List AudioChunk) (fs : Finset String) : Finset String :=
  chunks.foldl
    (fun fs c => if c.path ∈ fs ∧ strContains c.path "chunk_" = true then fs.erase c.path else fs)
    fs

example : pad4 3 = "0003" := by decide
example : chunkPath 12 = "chunk_0012.mp3" := by decide
example : strContains "chunk_0012.mp3" "chunk_" = true := by decide
example : strContains "audio.mp3" "chunk_" = false := by decide

/-! ## Transcription client (`client.py`) -/

/-- `TranscriptionResult` from `client.py`.  Segments and words are kept
abstract as sequences of numeric tags; durations and delays are in
milliseconds. -/
structure TranscriptionResult where
  text : String
  language : Option String := none
  duration : Option Nat := none
  segments : Option (List Nat) := some []
  words : Option (List Nat) := some []
deriving DecidableEq, Repr

/-- What one call to the remote service does on a given attempt. -/
inductive AttemptOutcome where
  | success (r : TranscriptionResult)
  | rateLimit
  | apiError (permanent : Bool)
  | otherError
deriving DecidableEq, Repr

/-- The exception surfaced by `transcribe`: the caught `RateLimitError` or
`APIError` recorded as `last_error`, an uncaught exception from outside the
API error hierarchy, or the generic
`Exception("Transcription failed after retries")`. -/
inductive RaisedError where
  | rateLimited
  | api (permanent : Bool)
  | other
  | generic
deriving DecidableEq, Repr

deriving instance DecidableEq for Except

/-- Observable behaviour of one `transcribe` call: its outcome, the list of
`time.sleep` waits in milliseconds in order, and the number of attempts
(remote calls) made. -/
structure TranscribeRun where
  outcome : Except RaisedError TranscriptionResult
  waits : List Nat
  attempts : Nat
deriving DecidableEq, Repr

/-- The retry loop of `GroqWhisperClient.transcribe` over the remaining
attempt indices, with `last` the recorded `last_error`.  `oc i` is what the
remote call does on attempt `i`, `n` is `max_retries` and `d` is
`retry_delay` in milliseconds. -/
def runAttempts (oc : Nat → AttemptOutcome) (n d : Nat) :
    List Nat → Option RaisedError → TranscribeRun
  | [], last => ⟨.error (last.getD .generic), [], 0⟩
  | i :: rest, last =>
    match oc i with
    | .success r => ⟨.ok r, [], 1⟩
    | .rateLimit =>
      let t := runAttempts oc n d rest (some .rateLimited)
      ⟨t.outcome, d * 2 ^ i :: t.waits, t.attempts + 1⟩
    | .apiError p =>
      let t := runAttempts oc n d rest (some (.api p))
      ⟨t.outcome, (if i < n - 1 then [d] else []) ++ t.waits, t.attempts + 1⟩
    | .otherError => ⟨.error .other, [], 1⟩

/-- `GroqWhisperClient.transcribe` with `max_retries = n` and
`retry_delay = d` ms: run `for attempt in range(max_retries)`. -/
def transcribe (oc : Nat → AttemptOutcome) (n d : Nat) : TranscribeRun :=
  runAttempts oc n d (List.range n) none

/-- The wait `transcribe` performs after a failed attempt `i`, if any:
exponential backoff for a rate limit, a fixed delay for any other API
error unless `i` is the final attempt, nothing otherwise. -/
def waitAfter (oc : Nat → AttemptOutcome) (n d i : Nat) : Option Nat :=
  match oc i with
  | .rateLimit => some (d * 2 ^ i)
  | .apiError _ => if i < n - 1 then some d else none
  | _ => none

/-! ## Orchestrator (`processor.py`) -/

/-- `ProcessingResult` from `processor.py`. -/
structure ProcessingResult where
  text : String
  language : Option String := none
  total_duration_ms : Nat := 0
  chunk_count : Nat := 1
  segments : List Nat := []
  source_file : String := ""
  was_video : Bool := false
deriving DecidableEq, Repr

/-- A fatal run failure of `TranscriptionProcessor.process`. -/
inductive RunError where
  | extraction
  | transcription (e : RaisedError)
deriving DecidableEq, Repr

/-- Python truthiness of an optional list (`if result.segments:`). -/
def truthySegs (o : Option (List Nat)) : Bool :=
  match o with
  | some l => !l.isEmpty
  | none => false

/-- Python `str.strip()`: drop whitespace from both ends. -/
def pyStrip (s : String) : String :=
  String.mk (((s.toList.dropWhile Char.isWhitespace).reverse.dropWhile
    Char.isWhitespace).reverse)

/-- `TranscriptionProcessor._combine_transcriptions`:
`" ".join(r.text.strip() for r in results if r.text)`. -/
def combine_transcriptions (results : List TranscriptionResult) : String :=
  String.intercalate " "
    ((results.filter (fun r => r.text ≠ "")).map (fun r => pyStrip r.text))

/-- The spec's wording of aggregation: strip every chunk text, drop the
ones that are empty, and join the rest with single spaces. -/
def combineSpec (results : List TranscriptionResult) : String :=
  String.intercalate " "
    ((results.map (fun r => pyStrip r.text)).filter (fun t => t ≠ ""))

/-- The per-chunk transcription loop of `process`: call the client once per
chunk position, aborting on the first failure. -/
def transcribeChunks (tF : Nat → Except RaisedError TranscriptionResult) :
    List Nat → Except RaisedError (List TranscriptionResult)
  | [] => .ok []
  | i :: rest =>
    match tF i with
    | .error e => .error e
    | .ok r =>
      match transcribeChunks tF rest with
      | .error e => .error e
      | .ok rs => .ok (r :: rs)

/-- The `ProcessingResult` built at the end of a successful `process` run. -/
def mkResult (results : List TranscriptionResult) (chunks : List AudioChunk)
    (sourceFile : String) (wasVideo : Bool) : ProcessingResult :=
  { text := combine_transcriptions results
    language := match results with | [] => none | r :: _ => r.language
    total_duration_ms := (chunks.map (fun c => c.duration_ms)).sum
    chunk_count := chunks.length
    segments := results.foldl
      (fun acc r => if truthySegs r.segments then acc ++ r.segments.getD [] else acc) []
    source_file := sourceFile
    was_video := wasVideo }

/-- `AudioExtractor.cleanup`: unlink the file if it exists. -/
def extractorCleanup (p : String) (fs : Finset String) : Finset String :=
  if p ∈ fs then fs.erase p else fs

/-- `TranscriptionProcessor.process`, with file effects.  Parameters:
`origPath` the input file, `isVideo`/`extractOk` whether extraction runs
and succeeds, `artifactPath` the extracted audio file name,
`fileSize`/`D` the size and duration of the audio fed to the chunker,
`tF` the per-chunk transcription outcome, `fs0` the initial file system.
Returns the run's outcome, the final file system and the set of files
written during the run. -/
def process (sz : Nat → Nat → Nat → Nat) (maxB : Nat)
    (origPath artifactPath : String) (isVideo extractOk : Bool)
    (fileSize D : Nat) (tF : Nat → Except RaisedError TranscriptionResult)
    (fs0 : Finset String) :
    Except RunError ProcessingResult × Finset String × Finset String :=
  if isVideo ∧ ¬ extractOk then
    -- extraction raised before any artifact existed: the finally block
    -- cleans an empty chunk list and no temp file
    (.error .extraction, fs0, ∅)
  else
    let audioPath := if isVideo then artifactPath else origPath
    let fs1 := if isVideo then insert artifactPath fs0 else fs0
    let w1 : Finset String := if isVideo then {artifactPath} else ∅
    let C := chunk_audio sz maxB fileSize D audioPath fs1 w1
    let chunks := C.1
    let body : Except RunError ProcessingResult :=
      match transcribeChunks tF (List.range chunks.length) with
      | .error e => .error (.transcription e)
      | .ok results => .ok (mkResult results chunks origPath isVideo)
    let fs3 := cleanup_chunks chunks C.2.1
    let fs4 := if isVideo then extractorCleanup artifactPath fs3 else fs3
    (body, fs4, C.2.2)

/-- The outcome of `process` alone, computed without file effects. -/
def processPure (sz : Nat → Nat → Nat → Nat) (maxB : Nat)
    (origPath artifactPath : String) (isVideo extractOk : Bool)
    (fileSize D : Nat) (tF : Nat → Except RaisedError TranscriptionResult) :
    Except RunError ProcessingResult :=
  if isVideo ∧ ¬ extractOk then .error .extraction
  else
    let audioPath := if isVideo then artifactPath else origPath
    let chunks := planChunks sz maxB fileSize D audioPath
    match transcribeChunks tF (List.range chunks.length) with
    | .error e => .error (.transcription e)
    | .ok results => .ok (mkResult results chunks origPath isVideo)

/-! ## Derived notions used by the statements -/

/-- The error `transcribe` records for a caught failure outcome: `none` for
outcomes that leave the loop (success, or an exception outside the API
error hierarchy). -/
def caughtErr : AttemptOutcome → Option RaisedError
  | .rateLimit => some .rateLimited
  | .apiError p => some (.api p)
  | _ => none

/-- A transcription result carrying only text, as the aggregation examples
use. -/
def trText (s : String) : TranscriptionResult :=
  ⟨s, none, none, some [], some []⟩

/-- A permanent (non-retryable class) API error on the first attempt,
followed by a success. -/
def ocPermanentThenOk : Nat → AttemptOutcome := fun i =>
  if i = 0 then .apiError true else .success (trText "ok")

/-- Two permanent API errors in a row. -/
def ocTwoPermanent : Nat → AttemptOutcome := fun _ => .apiError true

/-- The structural facts `_split_segment` guarantees for the chunks it
finalizes over `[s, e)` with base index `b`: a non-empty list with
consecutive indices starting at `b`, spanning exactly `[s, e)` with
adjacent chunks meeting, positive extents, file names derived from the
chunk index, derived durations, and each chunk either measured under the
ceiling at the export bitrate or shorter than twice the 10-second floor. -/
def SegChunks (sz : Nat → Nat → Nat → Nat) (maxB s e b : Nat)
    (cs : List AudioChunk) : Prop :=
  cs ≠ [] ∧
  cs.map (fun c => c.index) = List.range' b cs.length 1 ∧
  (cs.head?.map fun c => c.start_ms) = some s ∧
  (cs.getLast?.map fun c => c.end_ms) = some e ∧
  List.Chain' (fun a c => a.end_ms = c.start_ms) cs ∧
  (∀ c ∈ cs, c.start_ms < c.end_ms) ∧
  (∀ c ∈ cs, c.path = chunkPath c.index) ∧
  (∀ c ∈ cs, c.duration_ms = c.end_ms - c.start_ms) ∧
  (∀ c ∈ cs, sz 64 c.start_ms c.end_ms ≤ maxB ∨ c.duration_ms < 20000)

/-- A transcription call that always succeeds with a fixed result. -/
def tfOk : Nat → Except RaisedError TranscriptionResult :=
  fun _ => .ok ⟨"hi", some "en", none, some [1, 2], some []⟩

/-- An export-size function under which every exported range measures 101
bytes at every bitrate. -/
def szOversize : Nat → Nat → Nat → Nat := fun _ _ _ => 101

/-- Like `SegChunks` but only requiring each file name to contain
`"chunk_"`: what one main-loop window contributes, whose file name is
derived from the window index rather than the chunk index. -/
def WinChunks (sz : Nat → Nat → Nat → Nat) (maxB s e b : Nat)
    (cs : List AudioChunk) : Prop :=
  cs ≠ [] ∧
  cs.map (fun c => c.index) = List.range' b cs.length 1 ∧
  (cs.head?.map fun c => c.start_ms) = some s ∧
  (cs.getLast?.map fun c => c.end_ms) = some e ∧
  List.Chain' (fun a c => a.end_ms = c.start_ms) cs ∧
  (∀ c ∈ cs, c.start_ms < c.end_ms) ∧
  (∀ c ∈ cs, strContains c.path "chunk_" = true) ∧
  (∀ c ∈ cs, c.duration_ms = c.end_ms - c.start_ms) ∧
  (∀ c ∈ cs, sz 64 c.start_ms c.end_ms ≤ maxB ∨ c.duration_ms < 20000)

/-- The running invariant of the chunk list built by `chunk_audio`'s main
loop: dense 0-based indices, adjacent chunks meeting, positive extents,
derived durations, `"chunk_"`-containing file names, and each chunk under
the ceiling at the export bitrate or shorter than twice the floor. -/
def PlanInv (sz : Nat → Nat → Nat → Nat) (maxB : Nat)
    (cs : List AudioChunk) : Prop :=
  cs.map (fun c => c.index) = List.range' 0 cs.length 1 ∧
  List.Chain' (fun a c => a.end_ms = c.start_ms) cs ∧
  (∀ c ∈ cs, c.start_ms < c.end_ms) ∧
  (∀ c ∈ cs, c.duration_ms = c.end_ms - c.start_ms) ∧
  (∀ c ∈ cs, strContains c.path "chunk_" = true) ∧
  (∀ c ∈ cs, sz 64 c.start_ms c.end_ms ≤ maxB ∨ c.duration_ms < 20000)

/-! ## Helper lemmas -/

theorem runAttempts_attempts_le (oc : Nat → AttemptOutcome) (n d : Nat) :
    ∀ (l : List Nat) (last : Option RaisedError),
      (runAttempts oc n d l last).attempts ≤ l.length := by
  intro l
  induction l with
  | nil => intro last; simp [runAttempts]
  | cons i rest ih =>
    intro last
    simp only [runAttempts, List.length_cons]
    cases oc i with
    | success r => simp
    | rateLimit => simpa using ih (some .rateLimited)
    | apiError p => simpa using ih (some (.api p))
    | otherError => simp

theorem runAttempts_waits_eq (oc : Nat → AttemptOutcome) (n d : Nat) :
    ∀ (l : List Nat) (last : Option RaisedError),
      (runAttempts oc n d l last).waits =
        (l.take (runAttempts oc n d l last).attempts).filterMap (waitAfter oc n d) := by
  intro l
  induction l with
  | nil => intro last; simp [runAttempts]
  | cons i rest ih =>
    intro last
    simp only [runAttempts]
    cases hoc : oc i with
    | success r => simp [waitAfter, hoc]
    | rateLimit =>
      simp only [List.take_succ_cons, List.filterMap_cons, waitAfter, hoc]
      exact congrArg _ (ih (some .rateLimited))
    | apiError p =>
      simp only [List.take_succ_cons, List.filterMap_cons, waitAfter, hoc]
      rcases Nat.lt_or_ge i (n - 1) with hi | hi
      · simp only [if_pos hi]
        exact congrArg _ (ih (some (.api p)))
      · simp only [if_neg (Nat.not_lt.mpr hi), List.nil_append]
        exact ih (some (.api p))
    | otherError => simp [waitAfter, hoc]

theorem runAttempts_exhaust (oc : Nat → AttemptOutcome) (n d : Nat) :
    ∀ (m k : Nat) (last : Option RaisedError),
      (∀ i, k ≤ i → i < k + m → (caughtErr (oc i)).isSome) →
      (runAttempts oc n d (List.range' k m) last).attempts = m ∧
      (runAttempts oc n d (List.range' k m) last).outcome =
        .error (match m with
          | 0 => last.getD .generic
          | j + 1 => (caughtErr (oc (k + j))).getD .generic) := by
  intro m
  induction m with
  | zero => intro k last _; simp [runAttempts]
  | succ j ih =>
    intro k last h
    have hk : (caughtErr (oc k)).isSome := h k le_rfl (by omega)
    have hrest : ∀ i, k + 1 ≤ i → i < (k + 1) + j → (caughtErr (oc i)).isSome := by
      intro i h1 h2; exact h i (by omega) (by omega)
    rw [List.range'_succ]
    simp only [runAttempts]
    cases hoc : oc k with
    | success r => simp [caughtErr, hoc] at hk
    | otherError => simp [caughtErr, hoc] at hk
    | rateLimit =>
      have hih := ih (k + 1) (some .rateLimited) hrest
      refine ⟨by simpa using hih.1, ?_⟩
      rw [hih.2]
      cases j with
      | zero => simp [caughtErr, hoc, Option.getD]
      | succ j' =>
        have : k + 1 + j' = k + (j' + 1) := by omega
        simp [this]
    | apiError p =>
      have hih := ih (k + 1) (some (.api p)) hrest
      refine ⟨by simpa using hih.1, ?_⟩
      rw [hih.2]
      cases j with
      | zero => simp [caughtErr, hoc, Option.getD]
      | succ j' =>
        have : k + 1 + j' = k + (j' + 1) := by omega
        simp [this]

theorem pyStrip_empty : pyStrip "" = "" := rfl

theorem str_toList_append (a b : String) : (a ++ b).toList = a.toList ++ b.toList := by
  cases a; cases b; rfl

theorem listPrefixOf_self_append : ∀ (l r : List Char), listPrefixOf l (l ++ r) = true := by
  intro l r
  induction l with
  | nil => rfl
  | cons a t ih => simp [listPrefixOf, ih]

theorem listInfixOf_self_append : ∀ (l r : List Char), listInfixOf l (l ++ r) = true := by
  intro l r
  cases l with
  | nil =>
    cases r with
    | nil => rfl
    | cons c t =>
      simp only [listInfixOf, List.nil_append, Bool.or_eq_true]
      exact Or.inl rfl
  | cons a t =>
    simp only [List.cons_append, listInfixOf, Bool.or_eq_true]
    exact Or.inl (listPrefixOf_self_append (a :: t) r)

theorem chunkPath_contains (i : Nat) : strContains (chunkPath i) "chunk_" = true := by
  unfold chunkPath strContains
  rw [String.append_assoc, str_toList_append]
  exact listInfixOf_self_append _ _

theorem head?_append_left {α : Type} {l r : List α} (h : l ≠ []) :
    (l ++ r).head? = l.head? := by
  cases l with
  | nil => exact absurd rfl h
  | cons a t => simp

theorem getLast?_append_right {α : Type} {l r : List α} (h : r ≠ []) :
    (l ++ r).getLast? = r.getLast? := by
  rw [List.getLast?_append]
  cases hx : r.getLast? with
  | none =>
    have := List.getLast?_isSome.mpr h
    rw [hx] at this
    simp at this
  | some x => rfl

theorem map_head? {α β : Type} (f : α → β) (l : List α) :
    (l.map f).head? = l.head?.map f := by
  cases l <;> simp

theorem map_getLast? {α β : Type} (f : α → β) (l : List α) :
    (l.map f).getLast? = l.getLast?.map f := by
  induction l with
  | nil => simp
  | cons a t ih =>
    cases t with
    | nil => simp
    | cons b u => simpa using ih

theorem SegChunks.headPath {sz : Nat → Nat → Nat → Nat} {maxB s e b : Nat}
    {cs : List AudioChunk} (h : SegChunks sz maxB s e b cs) :
    chunkPath b ∈ cs.map (fun c => c.path) := by
  obtain ⟨hne, hidx, -, -, -, -, hpath, -, -⟩ := h
  cases cs with
  | nil => exact absurd rfl hne
  | cons c t =>
    simp only [List.map_cons, List.length_cons, List.range'_succ] at hidx
    have hc : c.index = b := (List.cons.injEq _ _ _ _ ▸ hidx).1
    simp [hpath c (by simp), hc]

theorem segChunks_single (sz : Nat → Nat → Nat → Nat) (maxB : Nat)
    (s e b : Nat) (hse : s < e) (hsz : sz 64 s e ≤ maxB ∨ e - s < 20000) :
    SegChunks sz maxB s e b [⟨chunkPath b, b, s, e, e - s⟩] := by
  refine ⟨by simp, rfl, rfl, rfl, List.chain'_singleton _, ?_, ?_, ?_, ?_⟩ <;>
    intro c hc <;> simp only [List.mem_singleton] at hc <;> subst hc
  · exact hse
  · rfl
  · rfl
  · simpa using hsz

theorem segChunks_append (sz : Nat → Nat → Nat → Nat) (maxB : Nat)
    (s mid e b : Nat) {l1 l2 : List AudioChunk}
    (h1 : SegChunks sz maxB s mid b l1)
    (h2 : SegChunks sz maxB mid e (b + l1.length) l2) :
    SegChunks sz maxB s e b (l1 ++ l2) := by
  obtain ⟨h1ne, h1idx, h1hd, h1last, h1ch, h1lt, h1path, h1dur, h1sz⟩ := h1
  obtain ⟨h2ne, h2idx, h2hd, h2last, h2ch, h2lt, h2path, h2dur, h2sz⟩ := h2
  have hlink : ∀ x ∈ l1.getLast?, ∀ y ∈ l2.head?, x.end_ms = y.start_ms := by
    intro x hx y hy
    have hx' : x.end_ms = mid := by
      rw [Option.mem_def] at hx
      rw [hx] at h1last
      simpa using h1last
    have hy' : y.start_ms = mid := by
      rw [Option.mem_def] at hy
      rw [hy] at h2hd
      simpa using h2hd
    rw [hx', hy']
  refine ⟨by simp [h1ne], ?_, ?_, ?_, List.Chain'.append h1ch h2ch hlink,
    ?_, ?_, ?_, ?_⟩
  · rw [List.map_append, h1idx, h2idx, List.length_append]
    have h := List.range'_append b l1.length l2.length 1
    simp only [one_mul] at h
    rw [h, Nat.add_comm l2.length l1.length]
  · rw [head?_append_left h1ne]
    exact h1hd
  · rw [getLast?_append_right h2ne]
    exact h2last
  all_goals
    intro c hc
    rcases List.mem_append.mp hc with hc1 | hc2
  · exact h1lt c hc1
  · exact h2lt c hc2
  · exact h1path c hc1
  · exact h2path c hc2
  · exact h1dur c hc1
  · exact h2dur c hc2
  · exact h1sz c hc1
  · exact h2sz c hc2

theorem splitBranch_spec (sz : Nat → Nat → Nat → Nat) (maxB : Nat) (f : Nat)
    (ih : ∀ (s e b : Nat) (fs w : Finset String), e - s ≤ f → s < e →
      SegChunks sz maxB s e b (splitSegmentF sz maxB f s e b fs w).1)
    (x y β : Nat) (fs' w' : Finset String) (hxy : x < y) (hle : y - x ≤ f) :
    SegChunks sz maxB x y β
      (if sz 64 x y > maxB then
          (splitSegmentF sz maxB f x y β ((insert (chunkPath β) fs').erase (chunkPath β))
            (insert (chunkPath β) w')).1
        else [⟨chunkPath β, β, x, y, y - x⟩]) := by
  by_cases hc : sz 64 x y > maxB
  · rw [if_pos hc]
    exact ih x y β _ _ hle hxy
  · rw [if_neg hc]
    exact segChunks_single sz maxB x y β hxy (Or.inl (by omega))

theorem splitSegmentF_spec (sz : Nat → Nat → Nat → Nat) (maxB : Nat) :
    ∀ (fuel s e b : Nat) (fs w : Finset String), e - s ≤ fuel → s < e →
      SegChunks sz maxB s e b (splitSegmentF sz maxB fuel s e b fs w).1 := by
  intro fuel
  induction fuel with
  | zero => intro s e b fs w hf hs; omega
  | succ f ih =>
    intro s e b fs w hf hs
    simp only [splitSegmentF]
    by_cases hfloor : (s + e) / 2 - s < 10000
    · rw [if_pos hfloor]
      exact segChunks_single sz maxB s e b hs (Or.inr (by omega))
    · rw [if_neg hfloor]
      simp only [apply_ite (f := fun p : List AudioChunk × Finset String × Finset String => p.1)]
      have hs1 : s < (s + e) / 2 := by omega
      have hs2 : (s + e) / 2 < e := by omega
      refine segChunks_append sz maxB s ((s + e) / 2) e b ?_ ?_
      · exact splitBranch_spec sz maxB f ih s ((s + e) / 2) b fs w hs1 (by omega)
      · exact splitBranch_spec sz maxB f ih ((s + e) / 2) e _ _ _ hs2 (by omega)

theorem splitSegment_spec (sz : Nat → Nat → Nat → Nat) (maxB : Nat)
    (s e b : Nat) (fs w : Finset String) (hs : s < e) :
    SegChunks sz maxB s e b (splitSegment sz maxB s e b fs w).1 :=
  splitSegmentF_spec sz maxB (e - s) s e b fs w le_rfl hs

theorem SegChunks.toWin {sz : Nat → Nat → Nat → Nat} {maxB s e b : Nat}
    {cs : List AudioChunk} (h : SegChunks sz maxB s e b cs) :
    WinChunks sz maxB s e b cs := by
  obtain ⟨h1, h2, h3, h4, h5, h6, h7, h8, h9⟩ := h
  refine ⟨h1, h2, h3, h4, h5, h6, ?_, h8, h9⟩
  intro c hc
  rw [h7 c hc]
  exact chunkPath_contains c.index

theorem winChunks_single (sz : Nat → Nat → Nat → Nat) (maxB : Nat)
    (s e b k : Nat) (hse : s < e) (hsz : sz 64 s e ≤ maxB ∨ e - s < 20000) :
    WinChunks sz maxB s e b [⟨chunkPath k, b, s, e, e - s⟩] := by
  refine ⟨by simp, rfl, rfl, rfl, List.chain'_singleton _, ?_, ?_, ?_, ?_⟩ <;>
    intro c hc <;> simp only [List.mem_singleton] at hc <;> subst hc
  · exact hse
  · exact chunkPath_contains k
  · rfl
  · simpa using hsz

theorem accWinAppend (sz : Nat → Nat → Nat → Nat) (maxB : Nat) (s e : Nat)
    (acc new : List AudioChunk)
    (hpl : PlanInv sz maxB acc)
    (hlink : ∀ x ∈ acc.getLast?, x.end_ms = s)
    (hw : WinChunks sz maxB s e acc.length new) :
    PlanInv sz maxB (acc ++ new) ∧
    ((acc ++ new).getLast?.map (fun c => c.end_ms) = some e) := by
  obtain ⟨hidx, hch, hpos, hdur, hcont, hsize⟩ := hpl
  obtain ⟨wne, widx, whd, wlast, wch, wlt, wcont, wdur, wsz⟩ := hw
  have hlk : ∀ x ∈ acc.getLast?, ∀ y ∈ new.head?, x.end_ms = y.start_ms := by
    intro x hx y hy
    rw [Option.mem_def] at hy
    rw [hy] at whd
    simp at whd
    rw [hlink x hx, whd]
  refine ⟨⟨?_, List.Chain'.append hch wch hlk, ?_, ?_, ?_, ?_⟩, ?_⟩
  · rw [List.map_append, hidx, widx, List.length_append]
    have h := List.range'_append 0 acc.length new.length 1
    simp only [one_mul, Nat.zero_add] at h
    rw [h, Nat.add_comm new.length acc.length]
  all_goals
    try
      (intro c hc
       rcases List.mem_append.mp hc with hc1 | hc2)
  · exact hpos c hc1
  · exact wlt c hc2
  · exact hdur c hc1
  · exact wdur c hc2
  · exact hcont c hc1
  · exact wcont c hc2
  · exact hsize c hc1
  · exact wsz c hc2
  · rw [getLast?_append_right wne]
    exact wlast

theorem chunkGo_spec (sz : Nat → Nat → Nat → Nat) (maxB D : Nat) :
    ∀ (m k : Nat) (acc : List AudioChunk) (fs w : Finset String),
      (∀ i, k ≤ i → i < k + m → i * chunkWindowMs < D) →
      D ≤ (k + m) * chunkWindowMs →
      PlanInv sz maxB acc →
      (acc.getLast?.map (fun c => c.end_ms) =
        if k = 0 then none else some (min (k * chunkWindowMs) D)) →
      PlanInv sz maxB (chunkGo sz maxB D (List.range' k m 1) acc fs w).1 ∧
      ((chunkGo sz maxB D (List.range' k m 1) acc fs w).1.getLast?.map
          (fun c => c.end_ms) =
        if k + m = 0 then none else some (min ((k + m) * chunkWindowMs) D)) := by
  intro m
  induction m with
  | zero =>
    intro k acc fs w _ _ hpl hlast
    simpa [chunkGo] using ⟨hpl, hlast⟩
  | succ m ih =>
    intro k acc fs w hwin hend hpl hlast
    have hWpos : 0 < chunkWindowMs := by decide
    have hkD : k * chunkWindowMs < D := hwin k le_rfl (by omega)
    have harith : k + (m + 1) = (k + 1) + m := by omega
    have hsucc : (k + 1) * chunkWindowMs = k * chunkWindowMs + chunkWindowMs :=
      Nat.succ_mul k chunkWindowMs
    have hse : k * chunkWindowMs < min (k * chunkWindowMs + chunkWindowMs) D := by
      omega
    have hlink : ∀ x ∈ acc.getLast?, x.end_ms = k * chunkWindowMs := by
      intro x hx
      rw [Option.mem_def] at hx
      rw [hx] at hlast
      by_cases hk : k = 0
      · rw [if_pos hk] at hlast; simp at hlast
      · rw [if_neg hk] at hlast
        simp only [Option.map_some'] at hlast
        have := Option.some.inj hlast
        omega
    have hwin' : ∀ i, k + 1 ≤ i → i < (k + 1) + m → i * chunkWindowMs < D := by
      intro i h1 h2; exact hwin i (by omega) (by omega)
    have hend' : D ≤ ((k + 1) + m) * chunkWindowMs := by
      rw [← harith]; exact hend
    rw [harith, List.range'_succ]
    simp only [chunkGo]
    by_cases hsz64 :
        sz 64 (k * chunkWindowMs) (min (k * chunkWindowMs + chunkWindowMs) D) > maxB
    · rw [if_pos hsz64]
      have hseg :=
        (splitSegment_spec sz maxB
          (k * chunkWindowMs) (min (k * chunkWindowMs + chunkWindowMs) D)
          acc.length
          ((insert (chunkPath k) fs).erase (chunkPath k)) (insert (chunkPath k) w)
          hse).toWin
      have happ := accWinAppend sz maxB _ _ acc _ hpl hlink hseg
      refine ih (k + 1) _ _ _ hwin' hend' happ.1 ?_
      rw [happ.2, if_neg (Nat.succ_ne_zero k), hsucc]
    · rw [if_neg hsz64]
      have hwinc := winChunks_single sz maxB (k * chunkWindowMs)
        (min (k * chunkWindowMs + chunkWindowMs) D) acc.length k hse
        (Or.inl (by omega))
      have happ := accWinAppend sz maxB _ _ acc _ hpl hlink hwinc
      refine ih (k + 1) _ _ _ hwin' hend' happ.1 ?_
      rw [happ.2, if_neg (Nat.succ_ne_zero k), hsucc]

theorem chain_start_lt (cs : List AudioChunk)
    (hch : List.Chain' (fun a c => a.end_ms = c.start_ms) cs)
    (hpos : ∀ c ∈ cs, c.start_ms < c.end_ms) :
    List.Chain' (fun a c => a.start_ms < c.start_ms) cs := by
  induction cs with
  | nil => simp
  | cons a t ih =>
    cases t with
    | nil => simp
    | cons b u =>
      rw [List.chain'_cons] at hch ⊢
      refine ⟨?_, ih hch.2 (fun c hc => hpos c (by simp [hc]))⟩
      have := hpos a (by simp)
      omega

theorem chunk_audio_over (sz : Nat → Nat → Nat → Nat)
    (maxB fileSize D : Nat) (inPath : String) (fs w : Finset String)
    (hover : maxB < fileSize) :
    chunk_audio sz maxB fileSize D inPath fs w =
      chunkGo sz maxB D (List.range ((D + chunkWindowMs - 1) / chunkWindowMs))
        [] fs w := by
  unfold chunk_audio
  rw [if_neg (not_not_intro hover)]

theorem planChunks_spec (sz : Nat → Nat → Nat → Nat)
    (maxB fileSize D : Nat) (inPath : String) (hover : maxB < fileSize) :
    PlanInv sz maxB (planChunks sz maxB fileSize D inPath) ∧
    ((planChunks sz maxB fileSize D inPath).getLast?.map (fun c => c.end_ms) =
      if (D + chunkWindowMs - 1) / chunkWindowMs = 0 then none else some D) := by
  have hW : chunkWindowMs = 300000 := rfl
  unfold planChunks
  rw [chunk_audio_over sz maxB fileSize D inPath ∅ ∅ hover]
  rw [List.range_eq_range']
  have h := chunkGo_spec sz maxB D ((D + chunkWindowMs - 1) / chunkWindowMs) 0 [] ∅ ∅
    (by intro i _ hi; rw [hW] at hi ⊢; omega)
    (by rw [hW]; omega)
    (by refine ⟨rfl, by simp, ?_, ?_, ?_, ?_⟩ <;> intro c hc <;> simp at hc)
    (by simp)
  refine ⟨h.1, ?_⟩
  rw [h.2]
  by_cases hnum : (D + chunkWindowMs - 1) / chunkWindowMs = 0
  · rw [if_pos (by omega), if_pos hnum]
  · rw [if_neg (by omega), if_neg hnum]
    congr 1
    rw [hW] at hnum ⊢
    omega

theorem splitSegmentF_fst_indep (sz : Nat → Nat → Nat → Nat) (maxB : Nat) :
    ∀ (fuel s e b : Nat) (fs w fs' w' : Finset String),
      (splitSegmentF sz maxB fuel s e b fs w).1 =
        (splitSegmentF sz maxB fuel s e b fs' w').1 := by
  intro fuel
  induction fuel with
  | zero => intro s e b fs w fs' w'; rfl
  | succ f ih =>
    intro s e b fs w fs' w'
    simp only [splitSegmentF]
    by_cases hfloor : (s + e) / 2 - s < 10000
    · rw [if_pos hfloor, if_pos hfloor]
    · rw [if_neg hfloor, if_neg hfloor]
      have hlcs :
          (if sz 64 s ((s + e) / 2) > maxB then
              splitSegmentF sz maxB f s ((s + e) / 2) b
                ((insert (chunkPath b) fs).erase (chunkPath b)) (insert (chunkPath b) w)
            else
              ([⟨chunkPath b, b, s, (s + e) / 2, (s + e) / 2 - s⟩],
               insert (chunkPath b) fs, insert (chunkPath b) w)).1 =
          (if sz 64 s ((s + e) / 2) > maxB then
              splitSegmentF sz maxB f s ((s + e) / 2) b
                ((insert (chunkPath b) fs').erase (chunkPath b)) (insert (chunkPath b) w')
            else
              ([⟨chunkPath b, b, s, (s + e) / 2, (s + e) / 2 - s⟩],
               insert (chunkPath b) fs', insert (chunkPath b) w')).1 := by
        by_cases hc : sz 64 s ((s + e) / 2) > maxB
        · rw [if_pos hc, if_pos hc]; exact ih _ _ _ _ _ _ _
        · rw [if_neg hc, if_neg hc]
      dsimp only
      rw [hlcs]
      congr 1
      by_cases hc : sz 64 ((s + e) / 2) e > maxB
      · rw [if_pos hc, if_pos hc]
        exact ih _ _ _ _ _ _ _
      · rw [if_neg hc, if_neg hc]

theorem splitSegment_fst_indep (sz : Nat → Nat → Nat → Nat) (maxB s e b : Nat)
    (fs w fs' w' : Finset String) :
    (splitSegment sz maxB s e b fs w).1 = (splitSegment sz maxB s e b fs' w').1 :=
  splitSegmentF_fst_indep sz maxB (e - s) s e b fs w fs' w'

theorem chunkGo_fst_indep (sz : Nat → Nat → Nat → Nat) (maxB D : Nat) :
    ∀ (ws : List Nat) (acc : List AudioChunk) (fs w fs' w' : Finset String),
      (chunkGo sz maxB D ws acc fs w).1 = (chunkGo sz maxB D ws acc fs' w').1 := by
  intro ws
  induction ws with
  | nil => intro acc fs w fs' w'; rfl
  | cons i rest ih =>
    intro acc fs w fs' w'
    simp only [chunkGo]
    by_cases hc : sz 64 (i * chunkWindowMs) (min (i * chunkWindowMs + chunkWindowMs) D) > maxB
    · rw [if_pos hc, if_pos hc]
      rw [show (splitSegment sz maxB (i * chunkWindowMs)
            (min (i * chunkWindowMs + chunkWindowMs) D) acc.length
            ((insert (chunkPath i) fs).erase (chunkPath i)) (insert (chunkPath i) w)).1 =
          (splitSegment sz maxB (i * chunkWindowMs)
            (min (i * chunkWindowMs + chunkWindowMs) D) acc.length
            ((insert (chunkPath i) fs').erase (chunkPath i)) (insert (chunkPath i) w')).1
        from splitSegment_fst_indep sz maxB _ _ _ _ _ _ _]
      exact ih _ _ _ _ _
    · rw [if_neg hc, if_neg hc]
      exact ih _ _ _ _ _

theorem chunk_audio_under (sz : Nat → Nat → Nat → Nat) (maxB fileSize D : Nat)
    (inPath : String) (fs w : Finset String) (h : fileSize ≤ maxB) :
    chunk_audio sz maxB fileSize D inPath fs w = ([⟨inPath, 0, 0, D, D⟩], fs, w) := by
  unfold chunk_audio
  rw [if_pos (by omega)]

theorem chunk_audio_fst (sz : Nat → Nat → Nat → Nat) (maxB fileSize D : Nat)
    (inPath : String) (fs w : Finset String) :
    (chunk_audio sz maxB fileSize D inPath fs w).1 =
      planChunks sz maxB fileSize D inPath := by
  rw [planChunks]
  by_cases hover : maxB < fileSize
  · rw [chunk_audio_over sz maxB fileSize D inPath fs w hover,
      chunk_audio_over sz maxB fileSize D inPath ∅ ∅ hover]
    exact chunkGo_fst_indep sz maxB D _ [] fs w ∅ ∅
  · rw [chunk_audio_under sz maxB fileSize D inPath fs w (by omega),
      chunk_audio_under sz maxB fileSize D inPath ∅ ∅ (by omega)]

theorem splitSegmentF_headPath (sz : Nat → Nat → Nat → Nat) (maxB : Nat) :
    ∀ (fuel s e b : Nat) (fs w : Finset String),
      chunkPath b ∈ (splitSegmentF sz maxB fuel s e b fs w).1.map (fun c => c.path) := by
  intro fuel
  induction fuel with
  | zero => intro s e b fs w; simp [splitSegmentF]
  | succ f ih =>
    intro s e b fs w
    simp only [splitSegmentF]
    by_cases hfloor : (s + e) / 2 - s < 10000
    · rw [if_pos hfloor]; simp
    · rw [if_neg hfloor]
      dsimp only
      rw [List.map_append]
      refine List.mem_append.mpr (Or.inl ?_)
      by_cases hc : sz 64 s ((s + e) / 2) > maxB
      · rw [if_pos hc]; exact ih _ _ _ _ _
      · rw [if_neg hc]; simp

theorem chunkGo_append (sz : Nat → Nat → Nat → Nat) (maxB D : Nat) :
    ∀ (ws : List Nat) (acc : List AudioChunk) (fs w : Finset String),
      ∃ t, (chunkGo sz maxB D ws acc fs w).1 = acc ++ t := by
  intro ws
  induction ws with
  | nil => intro acc fs w; exact ⟨[], by simp [chunkGo]⟩
  | cons i rest ih =>
    intro acc fs w
    simp only [chunkGo]
    by_cases hc : sz 64 (i * chunkWindowMs) (min (i * chunkWindowMs + chunkWindowMs) D) > maxB
    · rw [if_pos hc]
      obtain ⟨t, ht⟩ := ih (acc ++ (splitSegment sz maxB (i * chunkWindowMs)
        (min (i * chunkWindowMs + chunkWindowMs) D) acc.length
        ((insert (chunkPath i) fs).erase (chunkPath i)) (insert (chunkPath i) w)).1) _ _
      exact ⟨_, by rw [ht, List.append_assoc]⟩
    · rw [if_neg hc]
      obtain ⟨t, ht⟩ := ih (acc ++ [⟨chunkPath i, acc.length, i * chunkWindowMs,
        min (i * chunkWindowMs + chunkWindowMs) D,
        min (i * chunkWindowMs + chunkWindowMs) D - i * chunkWindowMs⟩]) _ _
      exact ⟨_, by rw [ht, List.append_assoc]⟩

theorem splitBranchFS (sz : Nat → Nat → Nat → Nat) (maxB : Nat) (f : Nat)
    (ih : ∀ (s e b : Nat) (fs w : Finset String),
      (∀ p, p ∈ (splitSegmentF sz maxB f s e b fs w).2.1 ↔
        p ∈ fs ∨ p ∈ (splitSegmentF sz maxB f s e b fs w).1.map (fun c => c.path)) ∧
      (∀ p, p ∈ (splitSegmentF sz maxB f s e b fs w).2.2 ↔
        p ∈ w ∨ p ∈ (splitSegmentF sz maxB f s e b fs w).1.map (fun c => c.path)))
    (x y β : Nat) (fs w : Finset String) :
    (∀ p, p ∈ (if sz 64 x y > maxB then
          splitSegmentF sz maxB f x y β
            ((insert (chunkPath β) fs).erase (chunkPath β)) (insert (chunkPath β) w)
        else ([⟨chunkPath β, β, x, y, y - x⟩],
          insert (chunkPath β) fs, insert (chunkPath β) w)).2.1 ↔
      p ∈ fs ∨ p ∈ (if sz 64 x y > maxB then
          splitSegmentF sz maxB f x y β
            ((insert (chunkPath β) fs).erase (chunkPath β)) (insert (chunkPath β) w)
        else ([⟨chunkPath β, β, x, y, y - x⟩],
          insert (chunkPath β) fs, insert (chunkPath β) w)).1.map (fun c => c.path)) ∧
    (∀ p, p ∈ (if sz 64 x y > maxB then
          splitSegmentF sz maxB f x y β
            ((insert (chunkPath β) fs).erase (chunkPath β)) (insert (chunkPath β) w)
        else ([⟨chunkPath β, β, x, y, y - x⟩],
          insert (chunkPath β) fs, insert (chunkPath β) w)).2.2 ↔
      p ∈ w ∨ p ∈ (if sz 64 x y > maxB then
          splitSegmentF sz maxB f x y β
            ((insert (chunkPath β) fs).erase (chunkPath β)) (insert (chunkPath β) w)
        else ([⟨chunkPath β, β, x, y, y - x⟩],
          insert (chunkPath β) fs, insert (chunkPath β) w)).1.map (fun c => c.path)) := by
  by_cases hc : sz 64 x y > maxB
  · rw [if_pos hc]
    have hhead := splitSegmentF_headPath sz maxB f x y β
      ((insert (chunkPath β) fs).erase (chunkPath β)) (insert (chunkPath β) w)
    obtain ⟨ih1, ih2⟩ := ih x y β ((insert (chunkPath β) fs).erase (chunkPath β))
      (insert (chunkPath β) w)
    constructor
    · intro p
      rw [ih1 p]
      constructor
      · rintro (hp | hp)
        · rw [Finset.mem_erase, Finset.mem_insert] at hp
          exact Or.inl (hp.2.resolve_left hp.1)
        · exact Or.inr hp
      · rintro (hp | hp)
        · by_cases hpb : p = chunkPath β
          · exact Or.inr (hpb ▸ hhead)
          · exact Or.inl (Finset.mem_erase.mpr ⟨hpb, Finset.mem_insert_of_mem hp⟩)
        · exact Or.inr hp
    · intro p
      rw [ih2 p]
      constructor
      · rintro (hp | hp)
        · rw [Finset.mem_insert] at hp
          rcases hp with hp | hp
          · exact Or.inr (hp ▸ hhead)
          · exact Or.inl hp
        · exact Or.inr hp
      · rintro (hp | hp)
        · exact Or.inl (Finset.mem_insert_of_mem hp)
        · exact Or.inr hp
  · rw [if_neg hc]
    constructor <;> intro p <;>
      simp [Finset.mem_insert, or_comm]

theorem splitSegmentF_fs (sz : Nat → Nat → Nat → Nat) (maxB : Nat) :
    ∀ (fuel s e b : Nat) (fs w : Finset String),
      (∀ p, p ∈ (splitSegmentF sz maxB fuel s e b fs w).2.1 ↔
        p ∈ fs ∨ p ∈ (splitSegmentF sz maxB fuel s e b fs w).1.map (fun c => c.path)) ∧
      (∀ p, p ∈ (splitSegmentF sz maxB fuel s e b fs w).2.2 ↔
        p ∈ w ∨ p ∈ (splitSegmentF sz maxB fuel s e b fs w).1.map (fun c => c.path)) := by
  intro fuel
  induction fuel with
  | zero =>
    intro s e b fs w
    constructor <;> intro p <;> simp [splitSegmentF, Finset.mem_insert, or_comm]
  | succ f ih =>
    intro s e b fs w
    simp only [splitSegmentF]
    by_cases hfloor : (s + e) / 2 - s < 10000
    · rw [if_pos hfloor]
      constructor <;> intro p <;> simp [Finset.mem_insert, or_comm]
    · rw [if_neg hfloor]
      dsimp only
      have hBL := splitBranchFS sz maxB f ih s ((s + e) / 2) b fs w
      have hBR := splitBranchFS sz maxB f ih ((s + e) / 2) e
        (b + (if sz 64 s ((s + e) / 2) > maxB then
            splitSegmentF sz maxB f s ((s + e) / 2) b
              ((insert (chunkPath b) fs).erase (chunkPath b)) (insert (chunkPath b) w)
          else ([⟨chunkPath b, b, s, (s + e) / 2, (s + e) / 2 - s⟩],
            insert (chunkPath b) fs, insert (chunkPath b) w)).1.length)
        (if sz 64 s ((s + e) / 2) > maxB then
            splitSegmentF sz maxB f s ((s + e) / 2) b
              ((insert (chunkPath b) fs).erase (chunkPath b)) (insert (chunkPath b) w)
          else ([⟨chunkPath b, b, s, (s + e) / 2, (s + e) / 2 - s⟩],
            insert (chunkPath b) fs, insert (chunkPath b) w)).2.1
        (if sz 64 s ((s + e) / 2) > maxB then
            splitSegmentF sz maxB f s ((s + e) / 2) b
              ((insert (chunkPath b) fs).erase (chunkPath b)) (insert (chunkPath b) w)
          else ([⟨chunkPath b, b, s, (s + e) / 2, (s + e) / 2 - s⟩],
            insert (chunkPath b) fs, insert (chunkPath b) w)).2.2
      constructor <;> intro p
      · rw [hBR.1 p, hBL.1 p, List.map_append, List.mem_append, or_assoc]
      · rw [hBR.2 p, hBL.2 p, List.map_append, List.mem_append, or_assoc]

theorem splitSegment_fs (sz : Nat → Nat → Nat → Nat) (maxB s e b : Nat)
    (fs w : Finset String) :
    (∀ p, p ∈ (splitSegment sz maxB s e b fs w).2.1 ↔
      p ∈ fs ∨ p ∈ (splitSegment sz maxB s e b fs w).1.map (fun c => c.path)) ∧
    (∀ p, p ∈ (splitSegment sz maxB s e b fs w).2.2 ↔
      p ∈ w ∨ p ∈ (splitSegment sz maxB s e b fs w).1.map (fun c => c.path)) :=
  splitSegmentF_fs sz maxB (e - s) s e b fs w

theorem chunkGo_fs (sz : Nat → Nat → Nat → Nat) (maxB D : Nat) :
    ∀ (ws : List Nat) (acc : List AudioChunk) (fs w : Finset String),
      (∀ p, p ∈ (chunkGo sz maxB D ws acc fs w).2.1 →
        p ∈ fs ∨ p ∈ (chunkGo sz maxB D ws acc fs w).1.map (fun c => c.path)) ∧
      (∀ p, p ∈ (chunkGo sz maxB D ws acc fs w).2.2 →
        p ∈ w ∨ p ∉ (chunkGo sz maxB D ws acc fs w).2.1 ∨
          p ∈ (chunkGo sz maxB D ws acc fs w).1.map (fun c => c.path)) := by
  intro ws
  induction ws with
  | nil =>
    intro acc fs w
    exact ⟨fun p hp => Or.inl hp, fun p hp => Or.inl hp⟩
  | cons i rest ih =>
    intro acc fs w
    simp only [chunkGo]
    by_cases hc : sz 64 (i * chunkWindowMs) (min (i * chunkWindowMs + chunkWindowMs) D) > maxB
    · rw [if_pos hc]
      set S := splitSegment sz maxB (i * chunkWindowMs)
        (min (i * chunkWindowMs + chunkWindowMs) D) acc.length
        ((insert (chunkPath i) fs).erase (chunkPath i)) (insert (chunkPath i) w) with hS
      obtain ⟨ih1, ih2⟩ := ih (acc ++ S.1) S.2.1 S.2.2
      obtain ⟨hfs1, hfs2⟩ := splitSegment_fs sz maxB (i * chunkWindowMs)
        (min (i * chunkWindowMs + chunkWindowMs) D) acc.length
        ((insert (chunkPath i) fs).erase (chunkPath i)) (insert (chunkPath i) w)
      rw [← hS] at hfs1 hfs2
      obtain ⟨t, ht⟩ := chunkGo_append sz maxB D rest (acc ++ S.1) S.2.1 S.2.2
      have hsub : ∀ q, q ∈ S.1.map (fun c => c.path) →
          q ∈ (chunkGo sz maxB D rest (acc ++ S.1) S.2.1 S.2.2).1.map (fun c => c.path) := by
        intro q hq
        rw [ht, List.map_append, List.map_append]
        exact List.mem_append.mpr (Or.inl (List.mem_append.mpr (Or.inr hq)))
      constructor
      · intro p hp
        rcases ih1 p hp with hp1 | hp1
        · rcases (hfs1 p).mp hp1 with hp2 | hp2
          · rw [Finset.mem_erase, Finset.mem_insert] at hp2
            exact Or.inl (hp2.2.resolve_left hp2.1)
          · exact Or.inr (hsub p hp2)
        · exact Or.inr hp1
      · intro p hp
        rcases ih2 p hp with hp1 | hp1 | hp1
        · rcases (hfs2 p).mp hp1 with hp2 | hp2
          · rw [Finset.mem_insert] at hp2
            rcases hp2 with hp3 | hp3
            · by_cases hmem : p ∈ (chunkGo sz maxB D rest (acc ++ S.1) S.2.1 S.2.2).2.1
              · rcases ih1 p hmem with hp4 | hp4
                · rcases (hfs1 p).mp hp4 with hp5 | hp5
                  · rw [Finset.mem_erase] at hp5
                    exact absurd hp3 hp5.1
                  · exact Or.inr (Or.inr (hsub p hp5))
                · exact Or.inr (Or.inr hp4)
              · exact Or.inr (Or.inl hmem)
            · exact Or.inl hp3
          · exact Or.inr (Or.inr (hsub p hp2))
        · exact Or.inr (Or.inl hp1)
        · exact Or.inr (Or.inr hp1)
    · rw [if_neg hc]
      obtain ⟨ih1, ih2⟩ := ih
        (acc ++ [⟨chunkPath i, acc.length, i * chunkWindowMs,
          min (i * chunkWindowMs + chunkWindowMs) D,
          min (i * chunkWindowMs + chunkWindowMs) D - i * chunkWindowMs⟩])
        (insert (chunkPath i) fs) (insert (chunkPath i) w)
      obtain ⟨t, ht⟩ := chunkGo_append sz maxB D rest
        (acc ++ [⟨chunkPath i, acc.length, i * chunkWindowMs,
          min (i * chunkWindowMs + chunkWindowMs) D,
          min (i * chunkWindowMs + chunkWindowMs) D - i * chunkWindowMs⟩])
        (insert (chunkPath i) fs) (insert (chunkPath i) w)
      have hmemw : chunkPath i ∈ (chunkGo sz maxB D rest
          (acc ++ [⟨chunkPath i, acc.length, i * chunkWindowMs,
            min (i * chunkWindowMs + chunkWindowMs) D,
            min (i * chunkWindowMs + chunkWindowMs) D - i * chunkWindowMs⟩])
          (insert (chunkPath i) fs) (insert (chunkPath i) w)).1.map (fun c => c.path) := by
        rw [ht, List.map_append, List.map_append]
        exact List.mem_append.mpr (Or.inl (List.mem_append.mpr (Or.inr (by simp))))
      constructor
      · intro p hp
        rcases ih1 p hp with hp1 | hp1
        · rw [Finset.mem_insert] at hp1
          rcases hp1 with hp2 | hp2
          · exact Or.inr (hp2 ▸ hmemw)
          · exact Or.inl hp2
        · exact Or.inr hp1
      · intro p hp
        rcases ih2 p hp with hp1 | hp1 | hp1
        · rw [Finset.mem_insert] at hp1
          rcases hp1 with hp2 | hp2
          · exact Or.inr (Or.inr (hp2 ▸ hmemw))
          · exact Or.inl hp2
        · exact Or.inr (Or.inl hp1)
        · exact Or.inr (Or.inr hp1)

theorem cleanup_chunks_subset :
    ∀ (chunks : List AudioChunk) (fs : Finset String) (p : String),
      p ∈ cleanup_chunks chunks fs → p ∈ fs := by
  intro chunks
  induction chunks with
  | nil => intro fs p hp; exact hp
  | cons c rest ih =>
    intro fs p hp
    rw [cleanup_chunks, List.foldl_cons] at hp
    by_cases hc : c.path ∈ fs ∧ strContains c.path "chunk_" = true
    · rw [if_pos hc] at hp
      exact Finset.erase_subset _ _ (ih (fs.erase c.path) p hp)
    · rw [if_neg hc] at hp
      exact ih fs p hp

theorem cleanup_chunks_removes :
    ∀ (chunks : List AudioChunk) (fs : Finset String) (c : AudioChunk),
      c ∈ chunks → strContains c.path "chunk_" = true →
      c.path ∉ cleanup_chunks chunks fs := by
  intro chunks
  induction chunks with
  | nil => intro fs c hc; exact absurd hc (List.not_mem_nil c)
  | cons d rest ih =>
    intro fs c hc hcont hp
    rw [cleanup_chunks, List.foldl_cons] at hp
    rcases List.mem_cons.mp hc with hc1 | hc1
    · subst hc1
      by_cases hd : c.path ∈ fs ∧ strContains c.path "chunk_" = true
      · rw [if_pos hd] at hp
        exact absurd (cleanup_chunks_subset rest _ _ hp) (Finset.not_mem_erase _ _)
      · rw [if_neg hd] at hp
        exact hd ⟨cleanup_chunks_subset rest _ _ hp, hcont⟩
    · by_cases hd : d.path ∈ fs ∧ strContains d.path "chunk_" = true
      · rw [if_pos hd] at hp
        exact ih _ c hc1 hcont hp
      · rw [if_neg hd] at hp
        exact ih _ c hc1 hcont hp

theorem extractorCleanup_not_mem (p : String) (fs : Finset String) :
    p ∉ extractorCleanup p fs := by
  unfold extractorCleanup
  by_cases hp : p ∈ fs
  · rw [if_pos hp]; exact Finset.not_mem_erase p fs
  · rw [if_neg hp]; exact hp

theorem extractorCleanup_subset (a p : String) (fs : Finset String)
    (hp : p ∈ extractorCleanup a fs) : p ∈ fs := by
  unfold extractorCleanup at hp
  by_cases ha : a ∈ fs
  · rw [if_pos ha] at hp; exact Finset.erase_subset _ _ hp
  · rw [if_neg ha] at hp; exact hp

theorem extractorCleanup_mem (a p : String) (fs : Finset String)
    (hp : p ∈ fs) (hne : p ≠ a) : p ∈ extractorCleanup a fs := by
  unfold extractorCleanup
  by_cases ha : a ∈ fs
  · rw [if_pos ha]; exact Finset.mem_erase.mpr ⟨hne, hp⟩
  · rw [if_neg ha]; exact hp

theorem chunk_audio_fs (sz : Nat → Nat → Nat → Nat) (maxB fileSize D : Nat)
    (inPath : String) (fs w : Finset String) :
    (∀ p, p ∈ (chunk_audio sz maxB fileSize D inPath fs w).2.1 →
      p ∈ fs ∨ p ∈ (chunk_audio sz maxB fileSize D inPath fs w).1.map (fun c => c.path)) ∧
    (∀ p, p ∈ (chunk_audio sz maxB fileSize D inPath fs w).2.2 →
      p ∈ w ∨ p ∉ (chunk_audio sz maxB fileSize D inPath fs w).2.1 ∨
        p ∈ (chunk_audio sz maxB fileSize D inPath fs w).1.map (fun c => c.path)) := by
  by_cases hover : maxB < fileSize
  · rw [chunk_audio_over sz maxB fileSize D inPath fs w hover]
    exact chunkGo_fs sz maxB D _ [] fs w
  · rw [chunk_audio_under sz maxB fileSize D inPath fs w (by omega)]
    exact ⟨fun p hp => Or.inl hp, fun p hp => Or.inl hp⟩

theorem chunk_audio_contains (sz : Nat → Nat → Nat → Nat) (maxB fileSize D : Nat)
    (inPath : String) (fs w : Finset String) (hover : maxB < fileSize) :
    ∀ c ∈ (chunk_audio sz maxB fileSize D inPath fs w).1,
      strContains c.path "chunk_" = true := by
  rw [chunk_audio_fst]
  exact ((planChunks_spec sz maxB fileSize D inPath hover).1).2.2.2.2.1

theorem segments_foldl (results : List TranscriptionResult) :
    ∀ acc : List Nat,
      results.foldl
        (fun acc r => if truthySegs r.segments then acc ++ r.segments.getD [] else acc)
        acc =
      acc ++ (results.map (fun r => r.segments.getD [])).flatten := by
  induction results with
  | nil => intro acc; simp
  | cons r rest ih =>
    intro acc
    simp only [List.foldl_cons, List.map_cons, List.flatten_cons]
    by_cases ht : truthySegs r.segments = true
    · rw [if_pos ht, ih, List.append_assoc]
    · rw [if_neg ht, ih]
      have hnil : r.segments.getD [] = [] := by
        unfold truthySegs at ht
        cases hseg : r.segments with
        | none => rfl
        | some l =>
          rw [hseg] at ht
          simp only [Bool.not_eq_true, Bool.not_eq_false] at ht
          simp [List.isEmpty_iff.mp (by simpa using ht)]
      rw [hnil]
      simp

/-! ## Claims -/

/-- C1: an input whose byte size is at or under the ceiling yields exactly
one chunk with `start_ms = 0` and `end_ms` the total duration, pointing at
the input file, and neither the file system nor the set of written files
changes: no chunk file is exported. -/
theorem chunk_audio_under_ceiling (sz : Nat → Nat → Nat → Nat)
    (maxB fileSize D : Nat) (inPath : String) (fs w : Finset String)
    (h : fileSize ≤ maxB) :
    chunk_audio sz maxB fileSize D inPath fs w = ([⟨inPath, 0, 0, D, D⟩], fs, w) :=
  chunk_audio_under sz maxB fileSize D inPath fs w h

theorem chunk_audio_under_ceiling_witness :
    50 ≤ 15728640 ∧
    chunk_audio (fun _ _ _ => 0) 15728640 50 12345 "in.mp3" ∅ ∅ =
      ([⟨"in.mp3", 0, 0, 12345, 12345⟩], ∅, ∅) :=
  ⟨by decide,
   chunk_audio_under_ceiling (fun _ _ _ => 0) 15728640 50 12345 "in.mp3" ∅ ∅ (by decide)⟩

/-- C2 counterexample: with a ceiling of 100 bytes, a 1000-byte input of
15 s duration, and every export measuring 101 bytes at every bitrate, the
plan is a single chunk of duration 15000 ms: its duration exceeds the
10-second floor and its exported size exceeds the ceiling, because the
floor test fires as soon as the *half*-window is under 10 s, accepting an
oversized chunk of up to 20 s. -/
theorem floor_chunk_oversized_cex :
    planChunks szOversize 100 1000 15000 "in.mp3" =
      [⟨"chunk_0000.mp3", 0, 0, 15000, 15000⟩] ∧
    ∀ c ∈ planChunks szOversize 100 1000 15000 "in.mp3",
      100 < szOversize 64 c.start_ms c.end_ms ∧
      100 < szOversize 32 c.start_ms c.end_ms ∧ 10000 < c.duration_ms := by
  decide

/-- C2 amended: for an input over the ceiling, every chunk in the plan
either measured at or under the ceiling when exported at the 64k bitrate,
or is shorter than 20 seconds — the floor case, in which bisecting would
have produced halves under the 10-second minimum, so the chunk is accepted
unconditionally (re-encoded at the lowest bitrate, with a warning) even if
oversized. -/
theorem chunk_over_ceiling_size_or_floor (sz : Nat → Nat → Nat → Nat)
    (maxB fileSize D : Nat) (inPath : String) (hover : maxB < fileSize) :
    ∀ c ∈ planChunks sz maxB fileSize D inPath,
      sz 64 c.start_ms c.end_ms ≤ maxB ∨ c.duration_ms < 20000 := by
  have h := (planChunks_spec sz maxB fileSize D inPath hover).1
  exact h.2.2.2.2.2

theorem chunk_over_ceiling_size_or_floor_witness :
    szOversize 64 0 15000 ≤ 100 ∨ (15000 : Nat) < 20000 :=
  chunk_over_ceiling_size_or_floor szOversize 100 1000 15000 "in.mp3"
    (by decide) ⟨"chunk_0000.mp3", 0, 0, 15000, 15000⟩ (by decide)

/-- C3: for every input of positive duration, the planned chunk list is
contiguous (`end_ms` of each chunk equals `start_ms` of the next), its
indices are the dense 0-based ascending sequence of list positions,
`start_ms` is strictly ascending in index order, and the final chunk's
`end_ms` is the total source duration. -/
theorem chunk_plan_contiguous_ordered (sz : Nat → Nat → Nat → Nat)
    (maxB fileSize D : Nat) (inPath : String) (hD : 0 < D) :
    List.Chain' (fun a c => a.end_ms = c.start_ms)
      (planChunks sz maxB fileSize D inPath) ∧
    (planChunks sz maxB fileSize D inPath).map (fun c => c.index) =
      List.range (planChunks sz maxB fileSize D inPath).length ∧
    List.Chain' (fun a c => a.start_ms < c.start_ms)
      (planChunks sz maxB fileSize D inPath) ∧
    ((planChunks sz maxB fileSize D inPath).getLast?.map (fun c => c.end_ms) =
      some D) := by
  by_cases hover : maxB < fileSize
  · have h := planChunks_spec sz maxB fileSize D inPath hover
    obtain ⟨⟨hidx, hch, hpos, -, -, -⟩, hlast⟩ := h
    refine ⟨hch, ?_, chain_start_lt _ hch hpos, ?_⟩
    · rw [List.range_eq_range']
      exact hidx
    · rw [hlast, if_neg (by have hW : chunkWindowMs = 300000 := rfl; rw [hW]; omega)]
  · rw [planChunks, chunk_audio_under sz maxB fileSize D inPath ∅ ∅ (by omega)]
    exact ⟨List.chain'_singleton _, rfl, List.chain'_singleton _, by simp⟩

theorem chunk_plan_contiguous_ordered_witness :
    List.Chain' (fun a c => a.end_ms = c.start_ms)
      (planChunks szOversize 100 1000 15000 "in.mp3") ∧
    (planChunks szOversize 100 1000 15000 "in.mp3").map (fun c => c.index) =
      List.range (planChunks szOversize 100 1000 15000 "in.mp3").length ∧
    List.Chain' (fun a c => a.start_ms < c.start_ms)
      (planChunks szOversize 100 1000 15000 "in.mp3") ∧
    ((planChunks szOversize 100 1000 15000 "in.mp3").getLast?.map
      (fun c => c.end_ms) = some 15000) :=
  chunk_plan_contiguous_ordered szOversize 100 1000 15000 "in.mp3" (by decide)

/-- C4: over a whole `transcribe` run, the waits are exactly one per
non-final executed attempt as given by `waitAfter`: `d * 2 ^ i` after a
rate limit on attempt `i`, the fixed `d` after any other API error unless
that attempt was the last allowed one, and nothing otherwise. -/
theorem transcribe_backoff_policy (oc : Nat → AttemptOutcome) (n d : Nat) :
    (transcribe oc n d).waits =
      (List.range (transcribe oc n d).attempts).filterMap (waitAfter oc n d) := by
  have h1 := runAttempts_waits_eq oc n d (List.range n) none
  have h2 := runAttempts_attempts_le oc n d (List.range n) none
  rw [List.length_range] at h2
  simp only [transcribe] at h1 ⊢
  rw [h1, List.take_range, Nat.min_eq_left h2]

/-- C5 counterexample: with `max_retries = 3` and a 1s base delay, three
consecutive rate-limit failures make exactly three remote calls — there is
no fourth call — and the client sleeps 1s, 2s and also 4s, the last sleep
happening after the final failed attempt. -/
theorem rate_limit_three_calls_cex :
    (transcribe (fun _ => .rateLimit) 3 1000).attempts = 3 ∧
    (transcribe (fun _ => .rateLimit) 3 1000).waits ≠ [1000, 2000] := by decide

/-- C5 amended: with `max_retries = 3` and a 1s base delay, three
consecutive rate-limit failures exhaust the budget after exactly three
calls and raise the recorded rate-limit error; the waits are 1s and 2s
between consecutive attempts plus a final 4s wait after the last failed
attempt. -/
theorem rate_limit_exhaustion_run :
    transcribe (fun _ => .rateLimit) 3 1000 =
      ⟨.error .rateLimited, [1000, 2000, 4000], 3⟩ := by decide

/-- C6 counterexample: an error the remote marks permanent does not make
`transcribe` fail immediately — the code retries it like any other API
error: after a permanent error on attempt 0 a second attempt runs and the
call succeeds. -/
theorem permanent_api_error_retried_cex :
    (transcribe ocPermanentThenOk 3 1000).attempts = 2 ∧
    (transcribe ocPermanentThenOk 3 1000).outcome = .ok (trText "ok") := by decide

/-- C6 amended: the client does not distinguish a permanent error class:
every error of the remote API hierarchy — rate limits and all other API
errors, permanent or not — is retried until the attempt budget is
exhausted, and the surfaced error is then the last one recorded, or the
generic transcription-failure error when no attempt ever ran. -/
theorem retry_exhaustion_last_error (oc : Nat → AttemptOutcome) (n d : Nat)
    (h : ∀ i, i < n → (caughtErr (oc i)).isSome) :
    (transcribe oc n d).attempts = n ∧
    (transcribe oc n d).outcome =
      .error (match n with
        | 0 => .generic
        | m + 1 => (caughtErr (oc m)).getD .generic) := by
  have := runAttempts_exhaust oc n d n 0 none (by intro i _ h2; exact h i (by omega))
  rw [transcribe, List.range_eq_range']
  cases n with
  | zero => exact this
  | succ m => simpa using this

theorem retry_exhaustion_last_error_witness :
    (transcribe ocTwoPermanent 2 700).attempts = 2 ∧
    (transcribe ocTwoPermanent 2 700).outcome = .error (.api true) :=
  retry_exhaustion_last_error ocTwoPermanent 2 700 (by decide)

/-- C7 counterexample: the code filters on the raw text before stripping,
so a whitespace-only chunk text survives the filter, strips to the empty
string and contributes an empty element to the join: the chunk texts
`["Hello", " ", "world"]` combine to `"Hello  world"` with two spaces,
while the spec's strip-then-drop-empty join gives `"Hello world"`. -/
theorem combine_whitespace_only_cex :
    combine_transcriptions [trText "Hello", trText " ", trText "world"] =
      "Hello  world" ∧
    combineSpec [trText "Hello", trText " ", trText "world"] = "Hello world" ∧
    combine_transcriptions [trText "Hello", trText " ", trText "world"] ≠
      combineSpec [trText "Hello", trText " ", trText "world"] := by decide

/-- C7 amended: aggregation drops chunk texts that are empty *before*
trimming and joins the stripped remainder with single spaces in index
order — which agrees with the spec's strip-then-drop-empty join whenever
no chunk text is whitespace-only; in particular `["Hello", "", "world"]`
combines to exactly `"Hello world"`. -/
theorem combine_agrees_with_spec_join (results : List TranscriptionResult)
    (h : ∀ r ∈ results, r.text ≠ "" → pyStrip r.text ≠ "") :
    combine_transcriptions results = combineSpec results ∧
    combine_transcriptions [trText "Hello", trText "", trText "world"] =
      "Hello world" := by
  constructor
  · unfold combine_transcriptions combineSpec
    congr 1
    induction results with
    | nil => rfl
    | cons r rest ih =>
      have hr := h r (by simp)
      have hrest : ∀ x ∈ rest, x.text ≠ "" → pyStrip x.text ≠ "" := by
        intro x hx; exact h x (by simp [hx])
      have hih := ih hrest
      by_cases he : r.text = ""
      · rw [List.filter_cons, if_neg (by simp [he]), List.map_cons,
          List.filter_cons, if_neg (by simp [he, pyStrip_empty])]
        exact hih
      · rw [List.filter_cons, if_pos (by simp [he]), List.map_cons,
          List.map_cons, List.filter_cons, if_pos (by simp [hr he])]
        rw [hih]
  · decide

theorem combine_agrees_with_spec_join_witness :
    combine_transcriptions [trText " a ", trText "", trText "b"] =
      combineSpec [trText " a ", trText "", trText "b"] :=
  (combine_agrees_with_spec_join [trText " a ", trText "", trText "b"]
    (by decide)).1

/-- C8: on every successful run, `process` returns a result whose text is
the combined chunk text, whose `language` is the first chunk result's
detected language (unset when there are no chunks), whose
`total_duration_ms` is the sum of the planned chunk durations, whose
`chunk_count` is the number of chunks actually planned, and whose
`segments` are the concatenation of the per-chunk segment sequences in
chunk index order. -/
theorem process_success_result (sz : Nat → Nat → Nat → Nat) (maxB : Nat)
    (origPath artifactPath : String) (isVideo extractOk : Bool)
    (fileSize D : Nat) (tF : Nat → Except RaisedError TranscriptionResult)
    (fs0 : Finset String) (results : List TranscriptionResult)
    (hex : isVideo = true → extractOk = true)
    (hok : transcribeChunks tF (List.range
      (planChunks sz maxB fileSize D
        (if isVideo then artifactPath else origPath)).length) = .ok results) :
    (process sz maxB origPath artifactPath isVideo extractOk fileSize D tF fs0).1 =
      .ok { text := combine_transcriptions results
            language := results.head?.bind (fun r => r.language)
            total_duration_ms := ((planChunks sz maxB fileSize D
              (if isVideo then artifactPath else origPath)).map
                (fun c => c.duration_ms)).sum
            chunk_count := (planChunks sz maxB fileSize D
              (if isVideo then artifactPath else origPath)).length
            segments := (results.map (fun r => r.segments.getD [])).flatten
            source_file := origPath
            was_video := isVideo } := by
  unfold process
  rw [if_neg (by rintro ⟨h1, h2⟩; exact h2 (hex h1))]
  dsimp only
  rw [chunk_audio_fst]
  simp only [hok]
  unfold mkResult
  simp only [Except.ok.injEq, ProcessingResult.mk.injEq, true_and, and_true]
  refine ⟨?_, ?_⟩
  · cases results <;> rfl
  · rw [segments_foldl results []]
    simp

theorem process_success_result_witness :
    (process (fun _ _ _ => 0) 100 "in.mp3" "a.mp3" false true 50 5000 tfOk ∅).1 =
      .ok { text := "hi", language := some "en", total_duration_ms := 5000,
            chunk_count := 1, segments := [1, 2], source_file := "in.mp3",
            was_video := false } := by
  have h := process_success_result (fun _ _ _ => 0) 100 "in.mp3" "a.mp3" false true
    50 5000 tfOk ∅ [⟨"hi", some "en", none, some [1, 2], some []⟩]
    (by decide) (by decide)
  rw [h]
  decide

/-- C9: in every run of `process` — extraction failure, transcription
failure or success — the returned outcome equals the pure pipeline outcome
(cleanup never changes it), and no file written during the run — neither a
chunk file nor the extraction artifact — remains in the final file
system. -/
theorem process_cleanup_invariant (sz : Nat → Nat → Nat → Nat) (maxB : Nat)
    (origPath artifactPath : String) (isVideo extractOk : Bool)
    (fileSize D : Nat) (tF : Nat → Except RaisedError TranscriptionResult)
    (fs0 : Finset String) :
    (process sz maxB origPath artifactPath isVideo extractOk fileSize D tF fs0).1 =
      processPure sz maxB origPath artifactPath isVideo extractOk fileSize D tF ∧
    (∀ p, p ∈ (process sz maxB origPath artifactPath isVideo extractOk fileSize D tF fs0).2.2 →
      p ∉ (process sz maxB origPath artifactPath isVideo extractOk fileSize D tF fs0).2.1) := by
  unfold process processPure
  by_cases hx : isVideo = true ∧ ¬(extractOk = true)
  · rw [if_pos hx, if_pos hx]
    exact ⟨rfl, fun p hp => by simp at hp⟩
  · rw [if_neg hx, if_neg hx]
    dsimp only
    constructor
    · rw [chunk_audio_fst]
    · intro p hp
      by_cases hover : maxB < fileSize
      · obtain ⟨hfs1, hfs2⟩ := chunk_audio_fs sz maxB fileSize D
          (if isVideo then artifactPath else origPath)
          (if isVideo then insert artifactPath fs0 else fs0)
          (if isVideo then {artifactPath} else ∅)
        have hcont := chunk_audio_contains sz maxB fileSize D
          (if isVideo then artifactPath else origPath)
          (if isVideo then insert artifactPath fs0 else fs0)
          (if isVideo then {artifactPath} else ∅) hover
        rcases hfs2 p hp with hpw | hpn | hpp
        · by_cases hv : isVideo = true
          · rw [if_pos hv] at hpw
            rw [Finset.mem_singleton] at hpw
            rw [if_pos hv, hpw]
            exact extractorCleanup_not_mem artifactPath _
          · rw [if_neg hv] at hpw
            simp at hpw
        · intro hfinal
          apply hpn
          by_cases hv : isVideo = true
          · rw [if_pos hv] at hfinal
            exact cleanup_chunks_subset _ _ _ (extractorCleanup_subset _ _ _ hfinal)
          · rw [if_neg hv] at hfinal
            exact cleanup_chunks_subset _ _ _ hfinal
        · obtain ⟨c, hc, hcp⟩ := List.mem_map.mp hpp
          intro hfinal
          have hnotin := cleanup_chunks_removes _
            (chunk_audio sz maxB fileSize D
              (if isVideo then artifactPath else origPath)
              (if isVideo then insert artifactPath fs0 else fs0)
              (if isVideo then {artifactPath} else ∅)).2.1 c hc (hcont c hc)
          rw [hcp] at hnotin
          apply hnotin
          by_cases hv : isVideo = true
          · rw [if_pos hv] at hfinal
            exact extractorCleanup_subset _ _ _ hfinal
          · rw [if_neg hv] at hfinal
            exact hfinal
      · rw [chunk_audio_under sz maxB fileSize D
          (if isVideo then artifactPath else origPath)
          (if isVideo then insert artifactPath fs0 else fs0)
          (if isVideo then {artifactPath} else ∅) (by omega)] at hp ⊢
        dsimp only at hp ⊢
        by_cases hv : isVideo = true
        · rw [if_pos hv] at hp
          rw [Finset.mem_singleton] at hp
          rw [if_pos hv, hp]
          exact extractorCleanup_not_mem artifactPath _
        · rw [if_neg hv] at hp
          simp at hp

theorem process_cleanup_invariant_witness :
    "chunk_0000.mp3" ∉
      (process szOversize 100 "in.mp3" "a.mp3" false true 1000 15000 tfOk
        {"in.mp3"}).2.1 :=
  (process_cleanup_invariant szOversize 100 "in.mp3" "a.mp3" false true 1000 15000
    tfOk {"in.mp3"}).2 "chunk_0000.mp3" (by decide)

/-- C10 counterexample: an under-ceiling input whose own file name contains
`"chunk_"` is the single chunk's path, and cleanup unlinks it: after the
run the caller's source file `chunk_rec.mp3` is gone, so cleanup does not
leave the source file unchanged on every run. -/
theorem cleanup_deletes_chunk_named_source_cex :
    planChunks (fun _ _ _ => 0) 100 50 5000 "chunk_rec.mp3" =
      [⟨"chunk_rec.mp3", 0, 0, 5000, 5000⟩] ∧
    "chunk_rec.mp3" ∈ ({"chunk_rec.mp3"} : Finset String) ∧
    "chunk_rec.mp3" ∉
      (process (fun _ _ _ => 0) 100 "chunk_rec.mp3" "a.mp3" false true 50 5000 tfOk
        {"chunk_rec.mp3"}).2.1 := by
  decide

/-- C10 amended: when a non-video input fits under the ceiling, the single
planned chunk's path is the caller's input file itself and nothing is
written during the run; cleanup unlinks only existing files whose name
contains `"chunk_"`, so the source file survives the run provided its own
name does not contain `"chunk_"` — an input whose name contains `"chunk_"`
is instead deleted by cleanup. -/
theorem under_ceiling_source_preserved (sz : Nat → Nat → Nat → Nat)
    (maxB fileSize D : Nat) (origPath artifactPath : String) (extractOk : Bool)
    (tF : Nat → Except RaisedError TranscriptionResult) (fs0 : Finset String)
    (hsz : fileSize ≤ maxB) (hname : strContains origPath "chunk_" = false)
    (hmem : origPath ∈ fs0) :
    planChunks sz maxB fileSize D origPath = [⟨origPath, 0, 0, D, D⟩] ∧
    (process sz maxB origPath artifactPath false extractOk fileSize D tF fs0).2.2 = ∅ ∧
    origPath ∈
      (process sz maxB origPath artifactPath false extractOk fileSize D tF fs0).2.1 := by
  unfold process
  rw [if_neg (by simp)]
  dsimp only
  simp only [Bool.false_eq_true, if_false]
  rw [chunk_audio_under sz maxB fileSize D origPath fs0 ∅ hsz]
  dsimp only
  refine ⟨?_, rfl, ?_⟩
  · rw [planChunks, chunk_audio_under sz maxB fileSize D origPath ∅ ∅ hsz]
  · unfold cleanup_chunks
    simp only [List.foldl_cons, List.foldl_nil]
    rw [if_neg (by rw [hname]; simp)]
    exact hmem

theorem under_ceiling_source_preserved_witness :
    planChunks (fun _ _ _ => 0) 100 50 5000 "rec.mp3" =
      [⟨"rec.mp3", 0, 0, 5000, 5000⟩] ∧
    (process (fun _ _ _ => 0) 100 "rec.mp3" "a.mp3" false true 50 5000 tfOk
      {"rec.mp3"}).2.2 = ∅ ∧
    "rec.mp3" ∈
      (process (fun _ _ _ => 0) 100 "rec.mp3" "a.mp3" false true 50 5000 tfOk
        {"rec.mp3"}).2.1 :=
  under_ceiling_source_preserved (fun _ _ _ => 0) 100 50 5000 "rec.mp3" "a.mp3"
    true tfOk {"rec.mp3"} (by decide) (by decide) (by decide)

end DroidPin
